import Mathlib

/-!
Verification of the DST ingestion engine of the open-hamclock-backend
repository (file `scripts/dst_simple.py`).

The development is a shallow embedding of the three layers of the engine:

* the windowing layer (`compute_csi_end_hour`, `_is_csi_partial_row_edge_override`,
  `value_for_timestamp`, `build_csi_like_last24`).  A UTC timestamp is modelled
  as a `Nat` counting whole hours since a fixed epoch that precedes all data
  handled by the program; a calendar day is modelled by its day index, so
  `tsDay t = t / 24` and `tsHour t = t % 24`.  The Gregorian calendar is an
  order isomorphism onto day indices and the windowing code uses only the
  ordering of dates, equality of dates, the hour-of-day of a timestamp and
  shifts by whole hours, so this change of representation is faithful.
* the persisted-store layer (`append_only_update`, `format_line`,
  `parse_output_line`).  A physical line of the store is modelled by the only
  two attributes the code ever observes: its parse result and whether it is
  byte-identical to the canonical rendering produced by `format_line`.
* the fixed-width record parser (`parse_dst_line_fixed`, `_parse_int_token`).
  A source line is modelled as its list of characters and the fixed-width
  column slicing, stripping and the two regular expressions of the source are
  implemented directly on character lists.

Python iteration order of `dict` is insertion order; `dict.get`, comprehension
overwrite ("last wins") and `drop_duplicates(keep="last")` are modelled
explicitly below.
-/

/-! ### Generic list helpers used by the embedding -/

/-- Maximum of a list of naturals, `none` on the empty list; models Python
`max(xs)` guarded by emptiness checks. -/
def listMax : List Nat → Option Nat
  | [] => none
  | t :: rest =>
    match listMax rest with
    | none => some t
    | some m => some (max t m)

/-- Stable insertion of a key-value pair into a list sorted by first
component. -/
def insertByFst (p : Nat × Int) : List (Nat × Int) → List (Nat × Int)
  | [] => [p]
  | q :: rest => if p.1 ≤ q.1 then p :: q :: rest else q :: insertByFst p rest

/-- Stable sort by first component; models Python `sorted(xs, key=fst)` (all
uses below sort lists whose keys are pairwise distinct, where stability is
vacuous). -/
def sortByFst : List (Nat × Int) → List (Nat × Int)
  | [] => []
  | p :: rest => insertByFst p (sortByFst rest)

/-- De-duplication by key keeping the first occurrence; models building a
Python `dict` by inserting only keys that are not yet present (`if ts not in
dedup`), whose iteration order is first-occurrence order. -/
def dedupKeepFirst : List (Nat × Int) → List (Nat × Int)
  | [] => []
  | p :: rest => p :: (dedupKeepFirst rest).filter (fun q => q.1 != p.1)

/-- The last `n` elements of a list; models the Python tail `xs[-n:]`. -/
def takeLast (n : Nat) (l : List α) : List α := l.drop (l.length - n)

/-- Effectful map over `Option` that fails on the first failing element;
models a Python loop that appends `f x` for each `x` and raises on the first
failure. -/
def mapMO (f : α → Option β) : List α → Option (List β)
  | [] => some []
  | a :: l =>
    match f a with
    | none => none
    | some b => (mapMO f l).map (fun bs => b :: bs)

/-! ### Data model of the windowing layer

`ParsedRow` is `ParsedDstRow` of the source with the `(year, month, day)`
triple replaced by the day index of that calendar date (see the header
comment); `hours` is the `hour -> value` dict as an association list with
pairwise distinct keys in every state the program constructs. -/

structure ParsedRow where
  day : Nat
  pre_field : Option Int
  hours : List (Nat × Int)
  stopped_early : Bool
  last_hour_was_packed_filler : Bool
deriving DecidableEq, Repr

/-- Day index of an hour timestamp. -/
def tsDay (t : Nat) : Nat := t / 24

/-- Hour-of-day of an hour timestamp. -/
def tsHour (t : Nat) : Nat := t % 24

/-- Hourly points of one row, `rows_to_points` inner loop:
`sorted(r.hours.items())` mapped to absolute timestamps. -/
def rowPoints (r : ParsedRow) : List (Nat × Int) :=
  (sortByFst r.hours).map (fun hv => (r.day * 24 + hv.1, hv.2))

/-- All points of all rows in row order (`rows_to_points` before
de-duplication). -/
def allPoints (rows : List ParsedRow) : List (Nat × Int) :=
  (rows.map rowPoints).flatten

/-- Timestamps carried by the rows (the keys of `parsed_map`). -/
def pointTs (rows : List ParsedRow) : List Nat := (allPoints rows).map Prod.fst

/-- Lookup in `parsed_map`: `rows_to_points` de-duplicates by timestamp with
`keep="last"`, so the value seen for `ts` is the last point with that
timestamp. -/
def parsedGet (rows : List ParsedRow) (ts : Nat) : Option Int :=
  (((allPoints rows).filter (fun p => p.1 == ts)).getLast?).map Prod.snd

/-- The row registered for a calendar day: the dict comprehension
`{(r.year, r.month, r.day): r for r in rows}` keeps the last row of each
day. -/
def rowByDate (rows : List ParsedRow) (d : Nat) : Option ParsedRow :=
  (rows.filter (fun r => r.day == d)).getLast?

/-! ### Anchor Calculator (`compute_csi_end_hour`) -/

/-- Desired window end: the instant (already truncated to the hour in this
hour-resolution model) minus one hour. -/
def desiredEnd (now_utc : Nat) : Nat := now_utc - 1

/-- Source-supported window end: the latest parsed timestamp, plus one
synthetic hour when the row of its calendar day has a pre-field and its last
parsed hour did not come from a packed filler. `none` when no row contributed
any parsed hour (`raise ValueError("no parsed points")`). -/
def maxSupportedEnd (rows : List ParsedRow) : Option Nat :=
  match listMax (pointTs rows) with
  | none => none
  | some latest =>
    match rowByDate rows (tsDay latest) with
    | none => some latest
    | some r =>
      if r.pre_field.isSome ∧ r.last_hour_was_packed_filler = false then
        some (latest + 1)
      else
        some latest

/-- CSI-like anchor computation. `none` models the `ValueError` raises of the
source (`no rows` / `no parsed points`). -/
def compute_csi_end_hour (rows : List ParsedRow) (now_utc : Nat) : Option Nat :=
  if rows = [] then none
  else (maxSupportedEnd rows).map (fun m => min (desiredEnd now_utc) m)

/-! ### Point Resolver (`_is_csi_partial_row_edge_override`,
`value_for_timestamp`) -/

/-- Edge override for a row of the target's day that stopped early
(`_is_csi_partial_row_edge_override` of the source). -/
def csi_edge_override (ts end_hour : Nat) (row : ParsedRow) : Bool :=
  if row.pre_field.isNone then false
  else if row.stopped_early = false then false
  else if ¬ tsDay ts = tsDay end_hour then false
  else
    match listMax (row.hours.map Prod.fst) with
    | none => false
    | some mx =>
      if tsHour end_hour < mx then decide (ts = end_hour - 1)
      else decide (ts = end_hour)

/-- Tail-lag rule of `value_for_timestamp`: when the row of the anchor's day
stopped early and its parsed hours extend past the anchor's hour-of-day, the
anchor itself resolves to the row's value for the hour before the anchor.
The source computes `prev_h = end_hour.hour - 1` over the integers; when the
anchor's hour-of-day is `0` that value is `-1`, which is never a key of the
hours dict, so the lookup misses. -/
def tailLagValue (row : ParsedRow) (ts end_hour : Nat) : Option Int :=
  if row.stopped_early = true ∧ tsDay ts = tsDay end_hour then
    match listMax (row.hours.map Prod.fst) with
    | none => none
    | some mx =>
      if tsHour end_hour < mx ∧ ts = end_hour then
        if tsHour end_hour = 0 then none
        else row.hours.lookup (tsHour end_hour - 1)
      else none
  else none

/-- Value resolution for one target timestamp (`value_for_timestamp`);
`none` models the `ValueError` raise (`NoValue`). -/
def value_for_timestamp (rows : List ParsedRow) (ts end_hour : Nat) : Option Int :=
  match rowByDate rows (tsDay ts) with
  | none => parsedGet rows ts
  | some row =>
    if csi_edge_override ts end_hour row then row.pre_field
    else
      match tailLagValue row ts end_hour with
      | some v => some v
      | none =>
        match parsedGet rows ts with
        | some v => some v
        | none => row.pre_field

/-! ### Window Builder (`build_csi_like_last24`) -/

/-- The 24-point window ending at the computed anchor; fails (`none`) if the
anchor computation or any of the 24 resolutions fails. -/
def build_csi_like_last24 (rows : List ParsedRow) (now_utc : Nat) :
    Option (List (Nat × Int)) :=
  (compute_csi_end_hour rows now_utc).bind (fun end_hour =>
    mapMO (fun t => (value_for_timestamp rows t end_hour).map (fun v => (t, v)))
      ((List.range 24).map (fun i => end_hour - (23 - i))))

/-! ### Persisted-state updater (`append_only_update`)

A physical line of the output store is modelled by the only attributes the
code observes: its parse result under `parse_output_line` and whether it is
byte-identical to the canonical rendering `format_line ts v` of its parse
result.  Two lines of the store are compared for equality only when at least
one of them is such a canonical rendering, so this quotient is faithful. -/

inductive DstLine where
  /-- A line that parses to `(ts, v)` and is exactly `format_line ts v`. -/
  | canon (ts : Nat) (v : Int) : DstLine
  /-- A line that parses to `(ts, v)` but differs textually from
  `format_line ts v` (extra spacing, different timestamp rendering, ...). -/
  | noncanon (ts : Nat) (v : Int) : DstLine
  /-- A line consisting only of whitespace (dropped by the `ln.strip()`
  filter before parsing). -/
  | blank : DstLine
  /-- A non-blank line that `parse_output_line` rejects. -/
  | bad : DstLine
deriving DecidableEq, Repr

/-- Whether the `ln.strip()` filter drops the line. -/
def DstLine.isBlank : DstLine → Bool
  | .blank => true
  | _ => false

/-- Model of `format_line` of the source: the canonical rendering of a point. -/
def format_line (ts : Nat) (v : Int) : DstLine := .canon ts v

/-- Model of `parse_output_line` of the source: `none` models the `ValueError`
raise on a malformed line. -/
def parse_output_line : DstLine → Option (Nat × Int)
  | .canon ts v => some (ts, v)
  | .noncanon ts v => some (ts, v)
  | .blank => none
  | .bad => none

/-- Errors of the persisted-state updater: `missingStore` models the
`FileNotFoundError` raise, `emptyStore` the `ValueError("dst.txt exists but
is empty")` raise, `corruptStore` the `ValueError` raised by
`parse_output_line` on a malformed line. -/
inductive StoreErr where
  | missingStore : StoreErr
  | emptyStore : StoreErr
  | corruptStore : StoreErr
deriving DecidableEq, Repr

/-- The parsed content of a store file: blank lines dropped, every remaining
line parsed, failing on the first malformed line. -/
def storeParsed (lines : List DstLine) : Option (List (Nat × Int)) :=
  mapMO parse_output_line (lines.filter (fun l => !l.isBlank))

/-- The repeated normalization block of `append_only_update` (lines
393-398 and 406-409 of the source): rewrite the file to the formatted last
24 de-duplicated items only when that differs from the current non-blank
tail, otherwise leave the file untouched. -/
def normalizePass (lines raw : List DstLine) (items : List (Nat × Int)) :
    List DstLine :=
  if (takeLast 24 items).map (fun p => format_line p.1 p.2) = takeLast 24 raw then
    lines
  else (takeLast 24 items).map (fun p => format_line p.1 p.2)

/-- Model of `append_only_update` of the source.  The argument is the current store
content (`none` when the file does not exist) and the result is the store
content after the run, or the error that aborted it.  The source raises
every error before its first write, so an error leaves the store as it
was. -/
def append_only_update (store : Option (List DstLine)) (new_ts : Nat)
    (new_val : Int) : Except StoreErr (List DstLine) :=
  match store with
  | none => .error .missingStore
  | some lines =>
    if (lines.filter (fun l => !l.isBlank)).isEmpty then .error .emptyStore
    else
      match storeParsed lines with
      | none => .error .corruptStore
      | some parsed =>
        match (sortByFst (dedupKeepFirst parsed)).getLast? with
        | none => .error .emptyStore
        | some last =>
          if new_ts = last.1 then
            .ok (normalizePass lines (lines.filter (fun l => !l.isBlank))
              (sortByFst (dedupKeepFirst parsed)))
          else if last.1 < new_ts then
            .ok ((takeLast 24 (sortByFst (dedupKeepFirst parsed) ++ [(new_ts, new_val)])).map
              (fun p => format_line p.1 p.2))
          else
            .ok (normalizePass lines (lines.filter (fun l => !l.isBlank))
              (sortByFst (dedupKeepFirst parsed)))

/-- The store content after one run of the updater: on an error the run
aborts before any write, so the store is unchanged. -/
def afterRun (store : Option (List DstLine)) (new_ts : Nat) (new_val : Int) :
    Option (List DstLine) :=
  match append_only_update store new_ts new_val with
  | .ok out => some out
  | .error _ => store

/-- The recorded value of a store at a timestamp: first occurrence wins, as
in the keep-first de-duplication of the updater. -/
def storeVal (lines : List DstLine) (t : Nat) : Option Int :=
  (storeParsed lines).bind (fun pts => pts.lookup t)

/-- The maximum timestamp recorded by a store. -/
def storeMaxTs (lines : List DstLine) : Option Nat :=
  (storeParsed lines).bind (fun pts => listMax (pts.map Prod.fst))

/-! ### Fixed-width record parser (`parse_dst_line_fixed`)

A source line is its character list; Python `line[a:b]` is `pySlice`, `strip`
is `trimChars` and the two regular expressions `[+-]?\d+` and `([+-]?\d)999`
are implemented structurally. -/

/-- ASCII digit test (`str.isdigit` on the characters at hand). -/
def isDigitCh (c : Char) : Bool := decide ('0' ≤ c ∧ c ≤ '9')

/-- Whitespace as stripped by `str.strip` (the source documents use only
these). -/
def isWSCh (c : Char) : Bool :=
  decide (c = ' ' ∨ c = '\t' ∨ c = '\n' ∨ c = '\r')

/-- Model of `str.strip`. -/
def trimChars (s : List Char) : List Char :=
  ((s.dropWhile isWSCh).reverse.dropWhile isWSCh).reverse

/-- The Python expression `line[a:b]` (shorter or empty when the line is
short). -/
def pySlice (l : List Char) (a b : Nat) : List Char := (l.drop a).take (b - a)

/-- Numeric value of a digit string. -/
def digitsVal (s : List Char) : Nat :=
  s.foldl (fun acc c => 10 * acc + (c.toNat - 48)) 0

/-- Model of `re.fullmatch(r"[+-]?\d+", t)` followed by `int(t)`, on an already
stripped token. -/
def parseSignedInt : List Char → Option Int
  | [] => none
  | '+' :: rest =>
    if rest ≠ [] ∧ rest.all isDigitCh then some (digitsVal rest) else none
  | '-' :: rest =>
    if rest ≠ [] ∧ rest.all isDigitCh then some (-(digitsVal rest : Int)) else none
  | s => if s.all isDigitCh then some (digitsVal s) else none

/-- Model of `_parse_int_token` of the source: strip, then parse as a plain signed
integer. -/
def parse_int_token (tok : List Char) : Option Int :=
  parseSignedInt (trimChars tok)

/-- Model of `re.fullmatch(r"([+-]?\d)999", tok)` with `int` of the captured group:
an optional sign, one digit, then the three literal nines. -/
def packedDigit : List Char → Option Int
  | [d, '9', '9', '9'] =>
    if isDigitCh d then some ((d.toNat - 48 : Nat) : Int) else none
  | ['+', d, '9', '9', '9'] =>
    if isDigitCh d then some ((d.toNat - 48 : Nat) : Int) else none
  | ['-', d, '9', '9', '9'] =>
    if isDigitCh d then some (-((d.toNat - 48 : Nat) : Int)) else none
  | _ => none

/-- Model of `str.isdigit`: nonempty and all digits. -/
def isDigits (s : List Char) : Bool := !s.isEmpty && s.all isDigitCh

/-- The stripped 4-column token of hour `h` (`line[20+4h : 24+4h].strip()`). -/
def hourTok (line : List Char) (h : Nat) : List Char :=
  trimChars (pySlice line (20 + 4 * h) (24 + 4 * h))

/-- The hourly scanning loop of `parse_dst_line_fixed`, starting at `hour`
with `n` hours left to scan and the current value of the
`last_hour_was_packed_filler` flag.  Returns the recorded
`(hour, value)` pairs, the `stopped_early` flag and the final
`last_hour_was_packed_filler` flag.  The `break` paths leave the packed
flag unchanged, the normal path resets it to `false` before continuing, the
packed path sets it to `true` and stops. -/
def scanHours (line : List Char) (hour : Nat) :
    Nat → Bool → List (Nat × Int) × Bool × Bool
  | 0, packedIn => ([], false, packedIn)
  | n + 1, packedIn =>
    if hourTok line hour = [] then ([], true, packedIn)
    else if hourTok line hour = ['9', '9', '9', '9'] then ([], true, packedIn)
    else
      match packedDigit (hourTok line hour) with
      | some d => ([(hour, d)], true, true)
      | none =>
        match parseSignedInt (hourTok line hour) with
        | none => ([], true, packedIn)
        | some v =>
          ((hour, v) :: (scanHours line (hour + 1) n false).1,
            (scanHours line (hour + 1) n false).2.1,
            (scanHours line (hour + 1) n false).2.2)

/-- One parsed source row with its calendar date as in the source (the
windowing layer above abstracts the date to its day index). -/
structure ParsedDstRow where
  year : Nat
  month : Nat
  day : Nat
  pre_field : Option Int
  hours : List (Nat × Int)
  stopped_early : Bool
  last_hour_was_packed_filler : Bool
deriving DecidableEq, Repr

/-- Model of `parse_dst_line_fixed` of the source.  The sequential early `return
None` checks of the source are combined into one conjunction; all reject the
line identically. -/
def parse_dst_line_fixed (line : List Char) : Option ParsedDstRow :=
  if line.take 3 = ['D', 'S', 'T'] ∧ ¬ line.length < 24 ∧
      isDigits (pySlice line 3 5) ∧ isDigits (pySlice line 5 7) ∧
      isDigits (pySlice line 8 10) then
    some
      { year := 2000 + digitsVal (pySlice line 3 5)
        month := digitsVal (pySlice line 5 7)
        day := digitsVal (pySlice line 8 10)
        pre_field := parse_int_token (pySlice line 16 20)
        hours := (scanHours line 0 24 false).1
        stopped_early := (scanHours line 0 24 false).2.1
        last_hour_was_packed_filler := (scanHours line 0 24 false).2.2 }
  else none

/-! ### Orderedness predicates and concrete example data -/

/-- Entries weakly sorted by timestamp. -/
abbrev SortedLeFst (l : List (Nat × Int)) : Prop :=
  List.Pairwise (fun p q => p.1 ≤ q.1) l

/-- Entries strictly sorted by timestamp (sorted, no duplicates). -/
abbrev SortedLtFst (l : List (Nat × Int)) : Prop :=
  List.Pairwise (fun p q => p.1 < q.1) l

/-- Example row: day 1, stopped early at hour 6, pre-field present. -/
def exRow1 : ParsedRow :=
  { day := 1, pre_field := some 99,
    hours := [(0,10),(1,11),(2,12),(3,13),(4,14),(5,15),(6,16)],
    stopped_early := true, last_hour_was_packed_filler := false }

/-- Example row: day 0, hour 1 came from a packed filler, pre-field
present. -/
def exRow3 : ParsedRow :=
  { day := 0, pre_field := some 0, hours := [(0,5),(1,2)],
    stopped_early := true, last_hour_was_packed_filler := true }

/-- Example row: day 0 fully parsed (all 24 hours, value = hour). -/
def exRowFull : ParsedRow :=
  { day := 0, pre_field := some 0,
    hours := (List.range 24).map (fun h => (h, (h : Int))),
    stopped_early := false, last_hour_was_packed_filler := false }

/-- Example rows collection on which a full 24-point window builds. -/
def exRows8 : List ParsedRow := [exRowFull, exRow1]

/-- The window built from `exRows8` at instant 100 (end hour 31):
hours 8..23 of day 0, hours 0..6 of day 1, then the pre-field of day 1. -/
def exWin8 : List (Nat × Int) :=
  (List.range 16).map (fun i => ((8 + i : Nat), (8 + i : Int))) ++
    (List.range 7).map (fun i => ((24 + i : Nat), (10 + i : Int))) ++ [(31, 99)]

/-- Example canonical store: 24 consecutive hours 100..123, value = index. -/
def exPts24 : List (Nat × Int) := (List.range 24).map (fun i => (100 + i, (i : Int)))

/-- The store `exPts24` after appending hour 124 and dropping the oldest entry. -/
def exPts24' : List (Nat × Int) :=
  (List.range 23).map (fun i => ((101 + i : Nat), (i + 1 : Int))) ++ [(124, 99)]

/-- Example source line: header `DST2510*07`, pre-field `0`, hour 0 token
`  -5`, hour 1 token `2999` (packed filler, digit 2). -/
def exLineC9 : List Char :=
  ['D','S','T','2','5','1','0','*','0','7',' ',' ',' ',' ',' ',' ',
   ' ',' ',' ','0',' ',' ','-','5','2','9','9','9']

/-- Example source line: hour 0 token `9999` (pure filler). -/
def exLineNines : List Char :=
  ['D','S','T','2','5','1','0','*','0','7',' ',' ',' ',' ',' ',' ',
   ' ',' ',' ','0','9','9','9','9']

/-- Example source line: hour 0 token `-999`, hour 1 token `  -7`, then end
of line (hour 2 empty). -/
def exLineC10 : List Char :=
  ['D','S','T','2','5','1','0','*','0','7',' ',' ',' ',' ',' ',' ',
   ' ',' ',' ','0','-','9','9','9',' ',' ','-','7']

/-! Sanity examples (windowing layer). -/

example :
    value_for_timestamp
      [{ day := 1, pre_field := some 99,
         hours := [(0,10),(1,11),(2,12),(3,13),(4,14),(5,15),(6,16)],
         stopped_early := true, last_hour_was_packed_filler := false }] 29 29 = some 14 := by
  decide

example :
    value_for_timestamp
      [{ day := 1, pre_field := some 99,
         hours := [(0,10),(1,11),(2,12),(3,13),(4,14),(5,15),(6,16)],
         stopped_early := true, last_hour_was_packed_filler := false }] 28 29 = some 99 := by
  decide

example :
    compute_csi_end_hour
      [{ day := 1, pre_field := some 99,
         hours := [(0,10),(1,11),(2,12),(3,13),(4,14),(5,15),(6,16)],
         stopped_early := true, last_hour_was_packed_filler := false }] 100 = some 31 := by
  decide


/-! ### Helper lemmas: `listMax` -/

theorem listMax_eq_none_iff {l : List Nat} : listMax l = none ↔ l = [] := by
  cases l with
  | nil => simp [listMax]
  | cons t rest =>
    rw [listMax]
    cases listMax rest <;> simp

theorem listMax_mem {l : List Nat} {m : Nat} (h : listMax l = some m) : m ∈ l := by
  induction l generalizing m with
  | nil => simp [listMax] at h
  | cons t rest ih =>
    rw [listMax] at h
    cases hr : listMax rest with
    | none => rw [hr] at h; simp at h; simp [h]
    | some m' =>
      rw [hr] at h
      simp at h
      rcases Nat.le_total t m' with hle | hle
      · rw [← h, max_eq_right hle]
        exact List.mem_cons_of_mem _ (ih hr)
      · rw [← h, max_eq_left hle]
        exact List.mem_cons_self _ _

theorem listMax_ub {l : List Nat} {m : Nat} (h : listMax l = some m) :
    ∀ t ∈ l, t ≤ m := by
  induction l generalizing m with
  | nil => simp
  | cons t rest ih =>
    rw [listMax] at h
    cases hr : listMax rest with
    | none =>
      rw [hr] at h
      simp at h
      have : rest = [] := listMax_eq_none_iff.mp hr
      subst this
      simp [← h]
    | some m' =>
      rw [hr] at h
      simp at h
      intro x hx
      rcases List.mem_cons.mp hx with rfl | hx
      · omega
      · have := ih hr x hx
        omega

theorem listMax_eq_of {l : List Nat} {m : Nat} (hm : m ∈ l)
    (hub : ∀ t ∈ l, t ≤ m) : listMax l = some m := by
  have hne : l ≠ [] := by rintro rfl; simp at hm
  obtain ⟨m', hm'⟩ : ∃ m', listMax l = some m' := by
    cases l with
    | nil => exact absurd rfl hne
    | cons t rest =>
      rw [listMax]
      cases listMax rest <;> exact ⟨_, rfl⟩
  have h1 : m' ≤ m := hub m' (listMax_mem hm')
  have h2 : m ≤ m' := listMax_ub hm' m hm
  have : m' = m := le_antisymm h1 h2
  rw [hm', this]

theorem listMax_isSome {l : List Nat} (h : l ≠ []) : ∃ m, listMax l = some m := by
  cases hl : listMax l with
  | none => exact absurd (listMax_eq_none_iff.mp hl) h
  | some m => exact ⟨m, rfl⟩

/-! ### Helper lemmas: association-list lookup -/

theorem lookup_some_mem {l : List (Nat × Int)} {t : Nat} {v : Int}
    (h : l.lookup t = some v) : (t, v) ∈ l := by
  induction l with
  | nil => simp [List.lookup] at h
  | cons p rest ih =>
    obtain ⟨k, w⟩ := p
    rw [List.lookup_cons] at h
    by_cases hk : t = k
    · subst hk
      simp at h
      simp [h]
    · rw [beq_eq_false_iff_ne.mpr hk] at h
      exact List.mem_cons_of_mem _ (ih h)

theorem lookup_none_iff {l : List (Nat × Int)} {t : Nat} :
    l.lookup t = none ↔ t ∉ l.map Prod.fst := by
  induction l with
  | nil => simp [List.lookup]
  | cons p rest ih =>
    obtain ⟨k, w⟩ := p
    rw [List.lookup_cons]
    by_cases hk : t = k
    · subst hk; simp
    · rw [beq_eq_false_iff_ne.mpr hk]
      simp [ih, hk]

theorem lookup_of_mem_nodup {l : List (Nat × Int)} {t : Nat} {v : Int}
    (nd : (l.map Prod.fst).Nodup) (h : (t, v) ∈ l) : l.lookup t = some v := by
  induction l with
  | nil => simp at h
  | cons p rest ih =>
    obtain ⟨k, w⟩ := p
    simp only [List.map_cons, List.nodup_cons] at nd
    rcases List.mem_cons.mp h with heq | hmem
    · cases heq
      rw [List.lookup_cons, beq_self_eq_true]
    · have hk : t ≠ k := by
        rintro rfl
        exact nd.1 (List.mem_map_of_mem Prod.fst hmem)
      rw [List.lookup_cons, beq_eq_false_iff_ne.mpr hk]
      exact ih nd.2 hmem

theorem lookup_eq_of_perm {l l' : List (Nat × Int)} {t : Nat}
    (nd : (l.map Prod.fst).Nodup) (hp : l.Perm l') : l.lookup t = l'.lookup t := by
  have nd' : (l'.map Prod.fst).Nodup := ((hp.map Prod.fst).nodup_iff).mp nd
  cases hl : l.lookup t with
  | none =>
    rw [eq_comm, lookup_none_iff]
    intro hmem
    exact (lookup_none_iff.mp hl) (((hp.map Prod.fst).mem_iff).mpr hmem)
  | some v =>
    rw [eq_comm]
    exact lookup_of_mem_nodup nd' (hp.mem_iff.mp (lookup_some_mem hl))

theorem lookup_filter_ne {l : List (Nat × Int)} {t a : Nat} (h : t ≠ a) :
    (l.filter (fun q => q.1 != a)).lookup t = l.lookup t := by
  induction l with
  | nil => simp
  | cons p rest ih =>
    obtain ⟨k, w⟩ := p
    by_cases hk : k = a
    · subst hk
      have hb : ((k, w).1 != k) = false := by simp
      simp only [List.filter_cons, hb, Bool.false_eq_true, if_false]
      rw [ih, List.lookup_cons, beq_eq_false_iff_ne.mpr (show t ≠ k from fun he => h he)]
    · have hb : ((k, w).1 != a) = true := bne_iff_ne.mpr hk
      simp only [List.filter_cons, hb, if_true]
      rw [List.lookup_cons, List.lookup_cons]
      cases hbeq : t == k <;> simp [ih]

/-! ### Helper lemmas: `dedupKeepFirst` -/

theorem dedup_lookup (l : List (Nat × Int)) (t : Nat) :
    (dedupKeepFirst l).lookup t = l.lookup t := by
  induction l with
  | nil => rfl
  | cons p rest ih =>
    obtain ⟨k, w⟩ := p
    rw [dedupKeepFirst]
    by_cases hk : t = k
    · subst hk
      rw [List.lookup_cons, List.lookup_cons, beq_self_eq_true]
    · rw [List.lookup_cons, List.lookup_cons, beq_eq_false_iff_ne.mpr hk]
      rw [lookup_filter_ne hk, ih]

theorem dedup_keys_mem (l : List (Nat × Int)) (t : Nat) :
    t ∈ (dedupKeepFirst l).map Prod.fst ↔ t ∈ l.map Prod.fst := by
  constructor
  · intro h
    have : (dedupKeepFirst l).lookup t ≠ none := by
      intro hn
      exact (lookup_none_iff.mp hn) h
    rw [dedup_lookup] at this
    by_contra hmem
    exact this (lookup_none_iff.mpr hmem)
  · intro h
    have : l.lookup t ≠ none := by
      intro hn
      exact (lookup_none_iff.mp hn) h
    rw [← dedup_lookup] at this
    by_contra hmem
    exact this (lookup_none_iff.mpr hmem)

theorem dedup_keys_nodup (l : List (Nat × Int)) :
    ((dedupKeepFirst l).map Prod.fst).Nodup := by
  induction l with
  | nil => simp [dedupKeepFirst]
  | cons p rest ih =>
    rw [dedupKeepFirst]
    simp only [List.map_cons, List.nodup_cons]
    constructor
    · intro hmem
      obtain ⟨q, hq, hq1⟩ := List.mem_map.mp hmem
      have := List.of_mem_filter hq
      rw [hq1] at this
      simp at this
    · have hsub : List.Sublist ((dedupKeepFirst rest).filter (fun q => q.1 != p.1))
          (dedupKeepFirst rest) := List.filter_sublist _
      exact ih.sublist (hsub.map Prod.fst)

theorem dedup_eq_self {l : List (Nat × Int)} (nd : (l.map Prod.fst).Nodup) :
    dedupKeepFirst l = l := by
  induction l with
  | nil => rfl
  | cons p rest ih =>
    simp only [List.map_cons, List.nodup_cons] at nd
    rw [dedupKeepFirst, ih nd.2]
    congr 1
    apply List.filter_eq_self.mpr
    intro q hq
    apply bne_iff_ne.mpr
    intro heq
    exact nd.1 (heq ▸ List.mem_map_of_mem Prod.fst hq)

theorem dedup_ne_nil {l : List (Nat × Int)} (h : l ≠ []) : dedupKeepFirst l ≠ [] := by
  cases l with
  | nil => exact absurd rfl h
  | cons p rest => rw [dedupKeepFirst]; simp

/-! ### Helper lemmas: `sortByFst` -/

theorem insertByFst_perm (p : Nat × Int) (l : List (Nat × Int)) :
    (insertByFst p l).Perm (p :: l) := by
  induction l with
  | nil => rfl
  | cons q rest ih =>
    rw [insertByFst]
    by_cases hle : p.1 ≤ q.1
    · rw [if_pos hle]
    · rw [if_neg hle]
      exact (ih.cons q).trans (List.Perm.swap p q rest)

theorem sortByFst_perm (l : List (Nat × Int)) : (sortByFst l).Perm l := by
  induction l with
  | nil => rfl
  | cons p rest ih =>
    rw [sortByFst]
    exact (insertByFst_perm p (sortByFst rest)).trans (ih.cons p)

theorem insertByFst_sorted {p : Nat × Int} {l : List (Nat × Int)}
    (h : SortedLeFst l) : SortedLeFst (insertByFst p l) := by
  induction l with
  | nil => simp [insertByFst]
  | cons q rest ih =>
    rw [insertByFst]
    have h := List.pairwise_cons.mp h
    by_cases hle : p.1 ≤ q.1
    · rw [if_pos hle]
      refine List.Pairwise.cons ?_ (List.Pairwise.cons h.1 h.2)
      intro r hr
      rcases List.mem_cons.mp hr with rfl | hr
      · exact hle
      · exact le_trans hle (h.1 r hr)
    · rw [if_neg hle]
      refine List.Pairwise.cons ?_ (ih h.2)
      intro r hr
      rcases List.mem_cons.mp ((insertByFst_perm p rest).mem_iff.mp hr) with rfl | hr
      · exact Nat.le_of_not_le hle
      · exact h.1 r hr

theorem sortByFst_sorted (l : List (Nat × Int)) : SortedLeFst (sortByFst l) := by
  induction l with
  | nil => simp [sortByFst]
  | cons p rest ih => exact insertByFst_sorted ih

theorem sortByFst_eq_self {l : List (Nat × Int)} (h : SortedLeFst l) :
    sortByFst l = l := by
  induction l with
  | nil => rfl
  | cons p rest ih =>
    have h := List.pairwise_cons.mp h
    rw [sortByFst, ih h.2]
    cases rest with
    | nil => rfl
    | cons q qs =>
      rw [insertByFst, if_pos (h.1 q (List.mem_cons_self q qs))]

/-! ### Helper lemmas: sortedness transfers -/

theorem sortedLt_of_le_nodup {l : List (Nat × Int)} (hs : SortedLeFst l)
    (nd : (l.map Prod.fst).Nodup) : SortedLtFst l := by
  have hne : List.Pairwise (fun p q : Nat × Int => p.1 ≠ q.1) l :=
    List.pairwise_map.mp nd
  exact (hs.and hne).imp (fun h => lt_of_le_of_ne h.1 h.2)

theorem sortedLe_of_lt {l : List (Nat × Int)} (hs : SortedLtFst l) :
    SortedLeFst l := hs.imp Nat.le_of_lt

theorem nodup_keys_of_sortedLt {l : List (Nat × Int)} (hs : SortedLtFst l) :
    (l.map Prod.fst).Nodup := by
  exact List.pairwise_map.mpr (hs.imp (fun h => Nat.ne_of_lt h))

/-! ### Helper lemmas: `getLast?` and `takeLast` -/

theorem getLast?_cons_of_ne_nil {a : α} {l : List α} (h : l ≠ []) :
    (a :: l).getLast? = l.getLast? := by
  cases l with
  | nil => exact absurd rfl h
  | cons b bs => exact List.getLast?_cons_cons

theorem getLast?_mem {l : List α} {a : α} (h : l.getLast? = some a) : a ∈ l := by
  induction l with
  | nil => simp at h
  | cons b bs ih =>
    cases hbs : bs with
    | nil => subst hbs; simp at h; simp [h]
    | cons c cs =>
      subst hbs
      rw [List.getLast?_cons_cons] at h
      exact List.mem_cons_of_mem _ (ih h)

theorem getLast?_exists {l : List α} (h : l ≠ []) : ∃ a, l.getLast? = some a := by
  cases hl : l.getLast? with
  | none =>
    cases l with
    | nil => exact absurd rfl h
    | cons b bs =>
      exact absurd hl (by simp [List.getLast?_isSome])
  | some a => exact ⟨a, rfl⟩

theorem sortedLe_getLast_ub {l : List (Nat × Int)} {a : Nat × Int}
    (hs : SortedLeFst l) (hl : l.getLast? = some a) : ∀ p ∈ l, p.1 ≤ a.1 := by
  induction l with
  | nil => simp
  | cons b bs ih =>
    have hs := List.pairwise_cons.mp hs
    intro p hp
    cases hbs : bs with
    | nil =>
      subst hbs
      simp at hl hp
      simp [hp, hl]
    | cons c cs =>
      subst hbs
      rw [List.getLast?_cons_cons] at hl
      rcases List.mem_cons.mp hp with rfl | hp
      · have ha : a ∈ c :: cs := getLast?_mem hl
        exact hs.1 a ha
      · exact ih hs.2 hl p hp

theorem getLast?_drop_of_lt {l : List α} {k : Nat} (h : k < l.length) :
    (l.drop k).getLast? = l.getLast? := by
  induction l generalizing k with
  | nil => simp at h
  | cons b bs ih =>
    cases k with
    | zero => rfl
    | succ k' =>
      simp only [List.length_cons, Nat.succ_lt_succ_iff] at h
      rw [List.drop_succ_cons, ih h, getLast?_cons_of_ne_nil]
      intro hnil
      rw [hnil] at h
      simp at h

theorem takeLast_sublist (n : Nat) (l : List α) : List.Sublist (takeLast n l) l :=
  List.drop_sublist _ l

theorem takeLast_eq_self {n : Nat} {l : List α} (h : l.length ≤ n) :
    takeLast n l = l := by
  rw [takeLast, Nat.sub_eq_zero_of_le h, List.drop_zero]

theorem takeLast_map (f : α → β) (n : Nat) (l : List α) :
    takeLast n (l.map f) = (takeLast n l).map f := by
  rw [takeLast, takeLast, List.length_map, List.map_drop]

theorem takeLast_getLast? {n : Nat} {l : List α} (hn : 1 ≤ n) (h : l ≠ []) :
    (takeLast n l).getLast? = l.getLast? := by
  rw [takeLast]
  apply getLast?_drop_of_lt
  have : 1 ≤ l.length := by
    cases l with
    | nil => exact absurd rfl h
    | cons b bs => simp
  omega

theorem takeLast_ne_nil {n : Nat} {l : List α} (hn : 1 ≤ n) (h : l ≠ []) :
    takeLast n l ≠ [] := by
  intro hcon
  obtain ⟨a, ha⟩ := getLast?_exists h
  have := takeLast_getLast? hn h
  rw [hcon] at this
  simp [ha] at this

/-! ### Helper lemmas: `mapMO` and canonical stores -/

theorem mapMO_some_cons {f : α → Option β} {a : α} {l : List α} {b : β}
    {bs : List β} (ha : f a = some b) (hl : mapMO f l = some bs) :
    mapMO f (a :: l) = some (b :: bs) := by
  rw [mapMO, ha, hl]
  rfl

theorem mapMO_length {f : α → Option β} {l : List α} {bs : List β}
    (h : mapMO f l = some bs) : bs.length = l.length := by
  induction l generalizing bs with
  | nil => rw [mapMO] at h; cases h; rfl
  | cons a rest ih =>
    rw [mapMO] at h
    cases ha : f a with
    | none => rw [ha] at h; simp at h
    | some b =>
      rw [ha] at h
      cases hr : mapMO f rest with
      | none => rw [hr] at h; simp at h
      | some bs' =>
        rw [hr] at h
        simp at h
        rw [← h]
        simp [ih hr]

theorem mapMO_none_of_mem {f : α → Option β} {l : List α} {a : α}
    (hmem : a ∈ l) (ha : f a = none) : mapMO f l = none := by
  induction l with
  | nil => simp at hmem
  | cons b rest ih =>
    rw [mapMO]
    rcases List.mem_cons.mp hmem with rfl | hmem
    · rw [ha]
    · cases hb : f b with
      | none => rfl
      | some c => rw [ih hmem]; rfl

theorem mapMO_fst {g : Nat → Option Int} {l : List Nat} {w : List (Nat × Int)}
    (h : mapMO (fun t => (g t).map (fun v => (t, v))) l = some w) :
    w.map Prod.fst = l := by
  induction l generalizing w with
  | nil => rw [mapMO] at h; cases h; rfl
  | cons a rest ih =>
    rw [mapMO] at h
    cases ha : g a with
    | none => rw [ha] at h; simp at h
    | some v =>
      rw [ha] at h
      simp only [Option.map_some'] at h
      cases hr : mapMO (fun t => (g t).map (fun v => (t, v))) rest with
      | none => rw [hr] at h; simp at h
      | some w' =>
        rw [hr] at h
        simp at h
        rw [← h]
        simp [ih hr]

theorem storeParsed_format (pts : List (Nat × Int)) :
    storeParsed (pts.map (fun p => format_line p.1 p.2)) = some pts := by
  induction pts with
  | nil => rfl
  | cons p rest ih =>
    rw [storeParsed] at ih ⊢
    simp only [List.map_cons]
    rw [List.filter_cons]
    have : (!(format_line p.1 p.2).isBlank) = true := rfl
    rw [this]
    simp only [if_true]
    exact mapMO_some_cons rfl ih

/-! ### Helper lemmas: the normalized item list of the updater -/

theorem items_sortedLe (parsed : List (Nat × Int)) :
    SortedLeFst (sortByFst (dedupKeepFirst parsed)) :=
  sortByFst_sorted _

theorem items_keys_nodup (parsed : List (Nat × Int)) :
    ((sortByFst (dedupKeepFirst parsed)).map Prod.fst).Nodup :=
  (((sortByFst_perm (dedupKeepFirst parsed)).map Prod.fst).nodup_iff).mpr
    (dedup_keys_nodup parsed)

theorem items_sortedLt (parsed : List (Nat × Int)) :
    SortedLtFst (sortByFst (dedupKeepFirst parsed)) :=
  sortedLt_of_le_nodup (items_sortedLe parsed) (items_keys_nodup parsed)

theorem items_lookup (parsed : List (Nat × Int)) (t : Nat) :
    (sortByFst (dedupKeepFirst parsed)).lookup t = parsed.lookup t := by
  rw [← dedup_lookup parsed t]
  exact lookup_eq_of_perm
    (((sortByFst_perm (dedupKeepFirst parsed)).map Prod.fst).nodup_iff.mpr
      (dedup_keys_nodup parsed))
    (sortByFst_perm (dedupKeepFirst parsed))

theorem items_keys_mem (parsed : List (Nat × Int)) (t : Nat) :
    t ∈ (sortByFst (dedupKeepFirst parsed)).map Prod.fst ↔
      t ∈ parsed.map Prod.fst := by
  rw [((sortByFst_perm (dedupKeepFirst parsed)).map Prod.fst).mem_iff]
  exact dedup_keys_mem parsed t

theorem items_ne_nil {parsed : List (Nat × Int)} (h : parsed ≠ []) :
    sortByFst (dedupKeepFirst parsed) ≠ [] := by
  intro hcon
  have := (sortByFst_perm (dedupKeepFirst parsed)).length_eq
  rw [hcon] at this
  have h2 := dedup_ne_nil h
  cases hd : dedupKeepFirst parsed with
  | nil => exact h2 hd
  | cons a l => rw [hd] at this; simp at this

/-! ### Structure of successful updater runs -/

theorem append_ok_shape {lines : List DstLine} {new_ts : Nat} {new_val : Int}
    {out : List DstLine}
    (h : append_only_update (some lines) new_ts new_val = .ok out) :
    ∃ parsed last,
      storeParsed lines = some parsed ∧ parsed ≠ [] ∧
      (sortByFst (dedupKeepFirst parsed)).getLast? = some last ∧
      (out = lines ∨
        (new_ts ≤ last.1 ∧
          out = (takeLast 24 (sortByFst (dedupKeepFirst parsed))).map
            (fun p => format_line p.1 p.2)) ∨
        (last.1 < new_ts ∧
          out = (takeLast 24 (sortByFst (dedupKeepFirst parsed) ++ [(new_ts, new_val)])).map
            (fun p => format_line p.1 p.2))) := by
  rw [append_only_update] at h
  by_cases hraw : (lines.filter (fun l => !l.isBlank)).isEmpty
  · rw [if_pos hraw] at h; cases h
  · rw [if_neg hraw] at h
    cases hp : storeParsed lines with
    | none => rw [hp] at h; cases h
    | some parsed =>
      rw [hp] at h
      simp only at h
      cases hlast : (sortByFst (dedupKeepFirst parsed)).getLast? with
      | none => rw [hlast] at h; simp only at h; cases h
      | some last =>
        rw [hlast] at h
        simp only at h
        have hpne : parsed ≠ [] := by
          rintro rfl
          simp [dedupKeepFirst, sortByFst] at hlast
        refine ⟨parsed, last, rfl, hpne, hlast, ?_⟩
        by_cases heq : new_ts = last.1
        · rw [if_pos heq] at h
          injection h with h
          rw [normalizePass] at h
          by_cases hcn : (takeLast 24 (sortByFst (dedupKeepFirst parsed))).map
              (fun p => format_line p.1 p.2) =
              takeLast 24 (lines.filter (fun l => !l.isBlank))
          · rw [if_pos hcn] at h
            exact Or.inl h.symm
          · rw [if_neg hcn] at h
            exact Or.inr (Or.inl ⟨Nat.le_of_eq heq, h.symm⟩)
        · rw [if_neg heq] at h
          by_cases hlt : last.1 < new_ts
          · rw [if_pos hlt] at h
            injection h with h
            exact Or.inr (Or.inr ⟨hlt, h.symm⟩)
          · rw [if_neg hlt] at h
            injection h with h
            rw [normalizePass] at h
            by_cases hcn : (takeLast 24 (sortByFst (dedupKeepFirst parsed))).map
                (fun p => format_line p.1 p.2) =
                takeLast 24 (lines.filter (fun l => !l.isBlank))
            · rw [if_pos hcn] at h
              exact Or.inl h.symm
            · rw [if_neg hcn] at h
              exact Or.inr (Or.inl ⟨by omega, h.symm⟩)

/-- A canonical strictly sorted store is left untouched by an append whose
timestamp does not exceed the stored maximum. -/
theorem append_canonical_noop {q : List (Nat × Int)} {last : Nat × Int}
    {new_ts : Nat} {new_val : Int}
    (hs : SortedLtFst q) (hl : q.getLast? = some last) (hle : new_ts ≤ last.1) :
    append_only_update (some (q.map (fun p => format_line p.1 p.2))) new_ts new_val =
      .ok (q.map (fun p => format_line p.1 p.2)) := by
  have hqne : q ≠ [] := by rintro rfl; simp at hl
  have hnd := nodup_keys_of_sortedLt hs
  have hdk : dedupKeepFirst q = q := dedup_eq_self hnd
  have hsort : sortByFst q = q := sortByFst_eq_self (sortedLe_of_lt hs)
  have hfil : (q.map (fun p => format_line p.1 p.2)).filter (fun l => !l.isBlank)
      = q.map (fun p => format_line p.1 p.2) := by
    apply List.filter_eq_self.mpr
    intro l hlmem
    obtain ⟨p, hp, rfl⟩ := List.mem_map.mp hlmem
    rfl
  have hie : ((q.map (fun p => format_line p.1 p.2)).filter
      (fun l => !l.isBlank)).isEmpty = false := by
    rw [hfil]
    cases q with
    | nil => exact absurd rfl hqne
    | cons a l => rfl
  rw [append_only_update]
  rw [hie]
  simp only [Bool.false_eq_true, if_false]
  rw [storeParsed_format]
  simp only
  rw [hdk, hsort, hl]
  simp only
  by_cases heq : new_ts = last.1
  · rw [if_pos heq, normalizePass, hfil, takeLast_map, if_pos rfl]
  · rw [if_neg heq, if_neg (by omega : ¬ last.1 < new_ts), normalizePass, hfil,
      takeLast_map, if_pos rfl]

theorem isEmpty_eq_false_of_ne_nil {l : List α} (h : l ≠ []) :
    l.isEmpty = false := by
  cases l with
  | nil => exact absurd rfl h
  | cons a as => rfl

theorem mapMO_arg_ne_nil {f : α → Option β} {l : List α} {bs : List β}
    (h : mapMO f l = some bs) (hbs : bs ≠ []) : l ≠ [] := by
  rintro rfl
  rw [mapMO] at h
  cases h
  exact hbs rfl

theorem sortedLe_listMax {l : List (Nat × Int)} {a : Nat × Int}
    (hs : SortedLeFst l) (hl : l.getLast? = some a) :
    listMax (l.map Prod.fst) = some a.1 := by
  apply listMax_eq_of
  · exact List.mem_map_of_mem Prod.fst (getLast?_mem hl)
  · intro t ht
    obtain ⟨p, hp, rfl⟩ := List.mem_map.mp ht
    exact sortedLe_getLast_ub hs hl p hp

/-- The last element of the sorted de-duplicated item list carries the
maximum timestamp of the parsed store content. -/
theorem items_last_eq_max {parsed : List (Nat × Int)} {last : Nat × Int}
    (hlast : (sortByFst (dedupKeepFirst parsed)).getLast? = some last) :
    listMax (parsed.map Prod.fst) = some last.1 := by
  have hil : listMax ((sortByFst (dedupKeepFirst parsed)).map Prod.fst) = some last.1 :=
    sortedLe_listMax (items_sortedLe parsed) hlast
  apply listMax_eq_of
  · exact (items_keys_mem parsed last.1).mp
      (List.mem_map_of_mem Prod.fst (getLast?_mem hlast))
  · intro t ht
    exact listMax_ub hil t ((items_keys_mem parsed t).mpr ht)

/-- Claim C5: AppendOnly is idempotent: a second run with the same new point
on the store produced by a successful first run returns the store
unchanged. -/
theorem C5_append_only_idempotent (lines out : List DstLine) (new_ts : Nat)
    (new_val : Int)
    (h1 : append_only_update (some lines) new_ts new_val = .ok out) :
    append_only_update (some out) new_ts new_val = .ok out := by
  obtain ⟨parsed, last, hp, hpne, hlast, hcase⟩ := append_ok_shape h1
  rcases hcase with rfl | ⟨hle, rfl⟩ | ⟨hlt, rfl⟩
  · exact h1
  · have hq : SortedLtFst (takeLast 24 (sortByFst (dedupKeepFirst parsed))) :=
      (items_sortedLt parsed).sublist (takeLast_sublist 24 _)
    have hql : (takeLast 24 (sortByFst (dedupKeepFirst parsed))).getLast? = some last := by
      rw [takeLast_getLast? (by omega) (items_ne_nil hpne)]
      exact hlast
    exact append_canonical_noop hq hql hle
  · have hx : ∀ p ∈ sortByFst (dedupKeepFirst parsed), p.1 < new_ts := by
      intro p hp'
      have := sortedLe_getLast_ub (items_sortedLe parsed) hlast p hp'
      omega
    have happ : SortedLtFst (sortByFst (dedupKeepFirst parsed) ++ [(new_ts, new_val)]) := by
      refine List.pairwise_append.mpr ⟨items_sortedLt parsed, by simp, ?_⟩
      intro a ha b hb
      rw [List.mem_singleton] at hb
      subst hb
      exact hx a ha
    have hq : SortedLtFst (takeLast 24
        (sortByFst (dedupKeepFirst parsed) ++ [(new_ts, new_val)])) :=
      happ.sublist (takeLast_sublist 24 _)
    have hql : (takeLast 24 (sortByFst (dedupKeepFirst parsed) ++ [(new_ts, new_val)])).getLast?
        = some (new_ts, new_val) := by
      rw [takeLast_getLast? (by omega) (by simp)]
      exact List.getLast?_concat _
    exact append_canonical_noop hq hql (Nat.le_refl _)

/-- Witness for C5 at a concrete store and point. -/
theorem C5_witness :
    append_only_update (some [format_line 20 3, format_line 21 7]) 21 7 =
      Except.ok [format_line 20 3, format_line 21 7] := by
  exact C5_append_only_idempotent [format_line 20 3]
    [format_line 20 3, format_line 21 7] 21 7 (by rfl)

/-- Claim C4 (amended): AppendOnly never decreases the maximum recorded
timestamp of a parseable store and never changes the recorded (keep-first)
value of a timestamp that is still present afterwards; and for a store whose
lines are the canonical renderings of strictly increasing points ending in
`(T, v)`, a call with timestamp `T` (any value) leaves the store unchanged. -/
theorem C4_append_only_preserves_history :
    (∀ lines parsed new_ts new_val out m m',
      storeParsed lines = some parsed → parsed ≠ [] →
      append_only_update (some lines) new_ts new_val = Except.ok out →
      storeMaxTs lines = some m → storeMaxTs out = some m' → m ≤ m') ∧
    (∀ lines parsed new_ts new_val out t v v',
      storeParsed lines = some parsed → parsed ≠ [] →
      append_only_update (some lines) new_ts new_val = Except.ok out →
      storeVal lines t = some v → storeVal out t = some v' → v' = v) ∧
    (∀ pts T vT new_val,
      SortedLtFst pts → pts.getLast? = some (T, vT) →
      append_only_update (some (pts.map (fun p => format_line p.1 p.2))) T new_val =
        Except.ok (pts.map (fun p => format_line p.1 p.2))) := by
  refine ⟨?_, ?_, ?_⟩
  · intro lines parsed new_ts new_val out m m' hp hpne hout hm hm'
    obtain ⟨parsed', last, hp', hpne', hlast, hcase⟩ := append_ok_shape hout
    rw [hp] at hp'
    injection hp' with hp'
    subst hp'
    have hmax : listMax (parsed.map Prod.fst) = some last.1 := items_last_eq_max hlast
    have hmm : m = last.1 := by
      rw [storeMaxTs, hp] at hm
      simp only [Option.some_bind] at hm
      rw [hmax] at hm
      injection hm with hm
      exact hm.symm
    rcases hcase with rfl | ⟨hle, rfl⟩ | ⟨hlt, rfl⟩
    · rw [storeMaxTs, hp] at hm'
      simp only [Option.some_bind] at hm'
      rw [hmax] at hm'
      injection hm' with hm'
      omega
    · have hql : (takeLast 24 (sortByFst (dedupKeepFirst parsed))).getLast? = some last := by
        rw [takeLast_getLast? (by omega) (items_ne_nil hpne)]
        exact hlast
      have hsq : SortedLeFst (takeLast 24 (sortByFst (dedupKeepFirst parsed))) :=
        (items_sortedLe parsed).sublist (takeLast_sublist 24 _)
      rw [storeMaxTs, storeParsed_format] at hm'
      simp only [Option.some_bind] at hm'
      rw [sortedLe_listMax hsq hql] at hm'
      injection hm' with hm'
      omega
    · have happ : SortedLeFst (sortByFst (dedupKeepFirst parsed) ++ [(new_ts, new_val)]) := by
        refine List.pairwise_append.mpr ⟨items_sortedLe parsed, by simp, ?_⟩
        intro a ha b hb
        rw [List.mem_singleton] at hb
        subst hb
        have := sortedLe_getLast_ub (items_sortedLe parsed) hlast a ha
        omega
      have hql : (takeLast 24 (sortByFst (dedupKeepFirst parsed) ++ [(new_ts, new_val)])).getLast?
          = some (new_ts, new_val) := by
        rw [takeLast_getLast? (by omega) (by simp)]
        exact List.getLast?_concat _
      have hsq : SortedLeFst (takeLast 24
          (sortByFst (dedupKeepFirst parsed) ++ [(new_ts, new_val)])) :=
        happ.sublist (takeLast_sublist 24 _)
      rw [storeMaxTs, storeParsed_format] at hm'
      simp only [Option.some_bind] at hm'
      rw [sortedLe_listMax hsq hql] at hm'
      injection hm' with hm'
      omega
  · intro lines parsed new_ts new_val out t v v' hp hpne hout hv hv'
    obtain ⟨parsed', last, hp', hpne', hlast, hcase⟩ := append_ok_shape hout
    rw [hp] at hp'
    injection hp' with hp'
    subst hp'
    rw [storeVal, hp] at hv
    simp only [Option.some_bind] at hv
    rcases hcase with rfl | ⟨hle, rfl⟩ | ⟨hlt, rfl⟩
    · rw [storeVal, hp] at hv'
      simp only [Option.some_bind] at hv'
      rw [hv] at hv'
      injection hv' with hv'
      exact hv'.symm
    · rw [storeVal, storeParsed_format] at hv'
      simp only [Option.some_bind] at hv'
      have hmem : (t, v') ∈ sortByFst (dedupKeepFirst parsed) :=
        (takeLast_sublist 24 _).subset (lookup_some_mem hv')
      have : parsed.lookup t = some v' := by
        rw [← items_lookup]
        exact lookup_of_mem_nodup (items_keys_nodup parsed) hmem
      rw [hv] at this
      injection this with this
      exact this.symm
    · rw [storeVal, storeParsed_format] at hv'
      simp only [Option.some_bind] at hv'
      have hmem : (t, v') ∈ sortByFst (dedupKeepFirst parsed) ++ [(new_ts, new_val)] :=
        (takeLast_sublist 24 _).subset (lookup_some_mem hv')
      rcases List.mem_append.mp hmem with hmem | hmem
      · have : parsed.lookup t = some v' := by
          rw [← items_lookup]
          exact lookup_of_mem_nodup (items_keys_nodup parsed) hmem
        rw [hv] at this
        injection this with this
        exact this.symm
      · rw [List.mem_singleton] at hmem
        have ht : t = new_ts := congrArg Prod.fst hmem
        have htk : t ∈ parsed.map Prod.fst :=
          List.mem_map_of_mem Prod.fst (lookup_some_mem hv)
        have := listMax_ub (items_last_eq_max hlast) t htk
        omega
  · intro pts T vT new_val hs hl
    exact append_canonical_noop hs hl (Nat.le_refl T)

/-- Counterexample for C4 as stated: a store whose lines all parse, whose
last line is `(1, 4)` and which has no duplicate timestamps, is rewritten
(reordered into normalized form) by an AppendOnly call with `(1, 9)` instead
of being left unchanged. -/
theorem C4_counterexample :
    storeParsed [DstLine.canon 2 5, DstLine.canon 1 4] = some [(2, 5), (1, 4)] ∧
    ([(2, 5), (1, 4)] : List (Nat × Int)).map Prod.fst = [2, 1] ∧
    append_only_update (some [DstLine.canon 2 5, DstLine.canon 1 4]) 1 9 =
      Except.ok [DstLine.canon 1 4, DstLine.canon 2 5] ∧
    [DstLine.canon 1 4, DstLine.canon 2 5] ≠ [DstLine.canon 2 5, DstLine.canon 1 4] := by
  refine ⟨by rfl, by decide, by rfl, by decide⟩

/-- Witness for C4 at concrete stores: the maximum-timestamp bound, the
value-preservation bound, and the canonical-store scenario. -/
theorem C4_witness :
    (2 : Nat) ≤ 2 ∧ (4 : Int) = 4 ∧
    append_only_update (some [format_line 10 1, format_line 11 2]) 11 5 =
      Except.ok [format_line 10 1, format_line 11 2] := by
  refine ⟨?_, ?_, ?_⟩
  · exact C4_append_only_preserves_history.1 [DstLine.canon 2 5, DstLine.canon 1 4]
      [(2, 5), (1, 4)] 1 9 [DstLine.canon 1 4, DstLine.canon 2 5] 2 2
      (by rfl) (by decide) (by rfl) (by rfl) (by rfl)
  · exact C4_append_only_preserves_history.2.1 [DstLine.canon 2 5, DstLine.canon 1 4]
      [(2, 5), (1, 4)] 1 9 [DstLine.canon 1 4, DstLine.canon 2 5] 1 4 4
      (by rfl) (by decide) (by rfl) (by rfl) (by rfl)
  · exact C4_append_only_preserves_history.2.2 [(10, 1), (11, 2)] 11 2 5
      (by decide) (by rfl)

/-- Claim C6: on a parseable store with maximum recorded timestamp `m` and a
new point with timestamp strictly greater than `m`, AppendOnly appends the
new pair to the normalized items and keeps only the most recent 24 entries. -/
theorem C6_append_and_trim (lines : List DstLine) (parsed : List (Nat × Int))
    (new_ts : Nat) (new_val : Int) (m : Nat)
    (hp : storeParsed lines = some parsed) (hpne : parsed ≠ [])
    (hm : listMax (parsed.map Prod.fst) = some m) (hgt : m < new_ts) :
    append_only_update (some lines) new_ts new_val =
      Except.ok ((takeLast 24 (sortByFst (dedupKeepFirst parsed) ++ [(new_ts, new_val)])).map
        (fun p => format_line p.1 p.2)) := by
  obtain ⟨last, hlast⟩ := getLast?_exists (items_ne_nil hpne)
  have hlm : last.1 = m := by
    have := items_last_eq_max hlast
    rw [hm] at this
    injection this with this
    exact this.symm
  have hraw : (lines.filter (fun l => !l.isBlank)).isEmpty = false := by
    apply isEmpty_eq_false_of_ne_nil
    exact mapMO_arg_ne_nil hp hpne
  rw [append_only_update, hraw]
  simp only [Bool.false_eq_true, if_false]
  rw [hp]
  simp only
  rw [hlast]
  simp only
  rw [if_neg (by omega : ¬ new_ts = last.1), if_pos (by omega : last.1 < new_ts)]

/-- Witness for C6: the 24-line store of hours 100..123 becomes the 24-line
store of hours 101..124 (oldest dropped, new appended). -/
theorem C6_witness :
    append_only_update (some (exPts24.map (fun p => format_line p.1 p.2))) 124 99 =
      Except.ok ((takeLast 24 (sortByFst (dedupKeepFirst exPts24) ++ [(124, 99)])).map
        (fun p => format_line p.1 p.2)) ∧
    (takeLast 24 (sortByFst (dedupKeepFirst exPts24) ++ [(124, 99)])) = exPts24' := by
  constructor
  · exact C6_append_and_trim (exPts24.map (fun p => format_line p.1 p.2)) exPts24
      124 99 123 (storeParsed_format exPts24) (by decide) (by decide) (by decide)
  · decide

/-- Claim C7: AppendOnly fails with MissingStore when the store is absent,
fails with CorruptStore when any non-blank line fails to parse, and on every
failure the store after the run is exactly the store before it. -/
theorem C7_error_preconditions :
    (∀ new_ts new_val,
      append_only_update none new_ts new_val = Except.error StoreErr.missingStore) ∧
    (∀ lines new_ts new_val l, l ∈ lines → l.isBlank = false →
      parse_output_line l = none →
      append_only_update (some lines) new_ts new_val = Except.error StoreErr.corruptStore) ∧
    (∀ store new_ts new_val e,
      append_only_update store new_ts new_val = Except.error e →
      afterRun store new_ts new_val = store) := by
  refine ⟨?_, ?_, ?_⟩
  · intro new_ts new_val
    rfl
  · intro lines new_ts new_val l hmem hnb hbad
    have hlraw : l ∈ lines.filter (fun x => !x.isBlank) :=
      List.mem_filter.mpr ⟨hmem, by rw [hnb]; rfl⟩
    have hraw : (lines.filter (fun x => !x.isBlank)).isEmpty = false := by
      apply isEmpty_eq_false_of_ne_nil
      intro hcon
      rw [hcon] at hlraw
      simp at hlraw
    have hsp : storeParsed lines = none := mapMO_none_of_mem hlraw hbad
    rw [append_only_update, hraw]
    simp only [Bool.false_eq_true, if_false]
    rw [hsp]
  · intro store new_ts new_val e herr
    rw [afterRun, herr]

/-- Witness for C7: a missing store, a store with a malformed line, and the
store content after the failed run. -/
theorem C7_witness :
    append_only_update none 5 1 = Except.error StoreErr.missingStore ∧
    append_only_update (some [DstLine.bad]) 5 1 = Except.error StoreErr.corruptStore ∧
    afterRun (some [DstLine.bad]) 5 1 = some [DstLine.bad] := by
  refine ⟨C7_error_preconditions.1 5 1, ?_, ?_⟩
  · exact C7_error_preconditions.2.1 [DstLine.bad] 5 1 DstLine.bad
      (by decide) (by rfl) (by rfl)
  · exact C7_error_preconditions.2.2 (some [DstLine.bad]) 5 1 StoreErr.corruptStore
      (C7_error_preconditions.2.1 [DstLine.bad] 5 1 DstLine.bad
        (by decide) (by rfl) (by rfl))

/-! ### Windowing-layer claims -/

theorem tsDay_sub_one {t : Nat} (h : 1 ≤ tsHour t) : tsDay (t - 1) = tsDay t := by
  rw [tsDay, tsDay]
  rw [tsHour] at h
  omega

theorem ts_pos_of_hour {t : Nat} (h : 1 ≤ tsHour t) : 1 ≤ t := by
  rw [tsHour] at h
  omega

/-- Claim C1 (amended): in the tail-lag situation (row of the anchor's day
has a pre-field, stopped early, its maximum parsed hour lies strictly past
the anchor's hour-of-day, and the hour before the anchor is parsed),
resolving the anchor itself returns the row's parsed value for the hour
before the anchor, and resolving one hour before the anchor returns the
row's pre-field - the assignment the source makes, which is the converse of
the claimed one. -/
theorem C1_point_resolver_tail_lag (rows : List ParsedRow) (anchor : Nat)
    (row : ParsedRow) (p v : Int) (mx : Nat)
    (hrow : rowByDate rows (tsDay anchor) = some row)
    (hpre : row.pre_field = some p)
    (hstop : row.stopped_early = true)
    (hmx : listMax (row.hours.map Prod.fst) = some mx)
    (hgt : tsHour anchor < mx)
    (hh : 1 ≤ tsHour anchor)
    (hprev : row.hours.lookup (tsHour anchor - 1) = some v) :
    value_for_timestamp rows anchor anchor = some v ∧
    value_for_timestamp rows (anchor - 1) anchor = some p := by
  have hanchor1 : 1 ≤ anchor := ts_pos_of_hour hh
  constructor
  · have hov : csi_edge_override anchor anchor row = false := by
      rw [csi_edge_override, hmx, hpre]
      simp [hstop]
      exact ⟨hgt, by omega⟩
    have htl : tailLagValue row anchor anchor = some v := by
      rw [tailLagValue, if_pos ⟨hstop, rfl⟩, hmx]
      simp only
      rw [if_pos ⟨hgt, trivial⟩, if_neg (by omega : ¬ tsHour anchor = 0)]
      exact hprev
    rw [value_for_timestamp, hrow]
    simp only
    rw [hov]
    simp only [Bool.false_eq_true, if_false]
    rw [htl]
  · have hday : tsDay (anchor - 1) = tsDay anchor := tsDay_sub_one hh
    have hov : csi_edge_override (anchor - 1) anchor row = true := by
      rw [csi_edge_override, hmx, hpre]
      simp [hstop, hday, hgt]
    rw [value_for_timestamp, hday, hrow]
    simp only
    rw [hov]
    simp only [if_true]
    exact hpre

/-- Counterexample for C1 as stated: all hypotheses of the claim hold for
the concrete row and anchor hour 29, yet resolving the anchor does not
return the pre-field (and hence the claimed conjunction fails). -/
theorem C1_counterexample :
    rowByDate [exRow1] (tsDay 29) = some exRow1 ∧
    exRow1.pre_field = some 99 ∧ exRow1.stopped_early = true ∧
    listMax (exRow1.hours.map Prod.fst) = some 6 ∧ tsHour 29 < 6 ∧
    1 ≤ tsHour 29 ∧ exRow1.hours.lookup (tsHour 29 - 1) = some 14 ∧
    ¬ (value_for_timestamp [exRow1] 29 29 = exRow1.pre_field ∧
       value_for_timestamp [exRow1] 28 29 = exRow1.hours.lookup (tsHour 29 - 1)) := by
  decide

/-- Witness for C1 (amended) at the concrete row and anchor 29. -/
theorem C1_witness :
    value_for_timestamp [exRow1] 29 29 = some 14 ∧
    value_for_timestamp [exRow1] 28 29 = some 99 := by
  exact C1_point_resolver_tail_lag [exRow1] 29 exRow1 99 14 6
    (by decide) (by rfl) (by rfl) (by decide) (by decide) (by decide) (by decide)

/-- Claim C2: the anchor equals `min(desiredEnd, maxSupportedEnd)` with
`desiredEnd` the hour-truncated instant minus one hour and `maxSupportedEnd`
the latest parsed timestamp, plus one synthetic hour exactly when the row of
its calendar day has a pre-field and no packed-filler edge; when no row
contributes a parsed hour the computation fails. -/
theorem C2_anchor_contract :
    (∀ rows now_utc latest, rows ≠ [] → latest ∈ pointTs rows →
      (∀ t ∈ pointTs rows, t ≤ latest) →
      compute_csi_end_hour rows now_utc =
        some (min (desiredEnd now_utc)
          (match rowByDate rows (tsDay latest) with
           | none => latest
           | some r =>
             if r.pre_field.isSome ∧ r.last_hour_was_packed_filler = false then latest + 1
             else latest))) ∧
    (∀ rows now_utc, allPoints rows = [] →
      compute_csi_end_hour rows now_utc = none) := by
  constructor
  · intro rows now latest hne hmem hub
    have hlm : listMax (pointTs rows) = some latest := listMax_eq_of hmem hub
    rw [compute_csi_end_hour, if_neg hne, maxSupportedEnd, hlm]
    simp only
    cases hrb : rowByDate rows (tsDay latest) with
    | none => rfl
    | some r =>
      simp only
      by_cases hc : r.pre_field.isSome ∧ r.last_hour_was_packed_filler = false
      · rw [if_pos hc, if_pos hc]
        rfl
      · rw [if_neg hc, if_neg hc]
        rfl
  · intro rows now hap
    rw [compute_csi_end_hour]
    by_cases hne : rows = []
    · rw [if_pos hne]
    · rw [if_neg hne, maxSupportedEnd]
      have hlm : listMax (pointTs rows) = none := by
        rw [pointTs, hap]
        rfl
      rw [hlm]
      rfl

/-- Witness for C2 at a concrete rows collection and instant, plus the
NoData case. -/
theorem C2_witness :
    compute_csi_end_hour [exRow1] 100 = some 31 ∧
    compute_csi_end_hour [] 5 = none := by
  constructor
  · exact C2_anchor_contract.1 [exRow1] 100 30 (by decide) (by decide) (by decide)
  · exact C2_anchor_contract.2 [] 5 (by rfl)

/-- Claim C3 (amended): when the latest row's final parsed hour came from a
packed filler (with a pre-field present), the Anchor Calculator grants no
synthetic +1 hour and `maxSupportedEnd` equals the latest parsed timestamp
itself - the packed-filler hour, which is one hour after the last normally
parsed one. -/
theorem C3_packed_filler_anchor (rows : List ParsedRow) (latest : Nat)
    (r : ParsedRow)
    (hmax : listMax (pointTs rows) = some latest)
    (hrow : rowByDate rows (tsDay latest) = some r)
    (hpacked : r.last_hour_was_packed_filler = true)
    (_hpre : r.pre_field.isSome = true) :
    maxSupportedEnd rows = some latest := by
  rw [maxSupportedEnd, hmax]
  simp only
  rw [hrow]
  simp only
  rw [if_neg (by simp [hpacked])]

/-- Counterexample for C3 as stated: the packed hour of the concrete row is
hour 1 (timestamp 1) and the last normally parsed hour is hour 0 (timestamp
0); `maxSupportedEnd` is the packed hour's timestamp 1, not 0. -/
theorem C3_counterexample :
    exRow3.hours = [(0, 5), (1, 2)] ∧ exRow3.last_hour_was_packed_filler = true ∧
    exRow3.pre_field.isSome = true ∧
    listMax (pointTs [exRow3]) = some 1 ∧
    maxSupportedEnd [exRow3] = some 1 ∧ maxSupportedEnd [exRow3] ≠ some 0 := by
  decide

/-- Witness for C3 (amended) at the concrete packed-filler row. -/
theorem C3_witness : maxSupportedEnd [exRow3] = some 1 :=
  C3_packed_filler_anchor [exRow3] 1 exRow3 (by decide) (by decide) (by rfl) (by rfl)

/-- Claim C8: the Window Builder either fails outright (in particular when
the anchor computation fails) or returns exactly 24 points whose timestamps
are the 24 consecutive hours ending at the anchor (hence strictly
increasing with uniform one-hour spacing).  The bound `23 ≤ e` only places
the window after the model's epoch, which precedes all program data. -/
theorem C8_window_shape :
    (∀ rows now_utc, compute_csi_end_hour rows now_utc = none →
      build_csi_like_last24 rows now_utc = none) ∧
    (∀ rows now_utc e w, compute_csi_end_hour rows now_utc = some e → 23 ≤ e →
      build_csi_like_last24 rows now_utc = some w →
      w.length = 24 ∧ w.map Prod.fst = (List.range 24).map (fun i => e - 23 + i)) := by
  constructor
  · intro rows now h
    rw [build_csi_like_last24, h]
    rfl
  · intro rows now e w he h23 hw
    rw [build_csi_like_last24, he] at hw
    simp only [Option.some_bind] at hw
    have hfst := mapMO_fst hw
    have hlen := mapMO_length hw
    constructor
    · rw [hlen]
      simp
    · rw [hfst]
      apply List.map_congr_left
      intro i hi
      rw [List.mem_range] at hi
      omega

/-- Witness for C8: the failing case on no data, and the 24-point window of
`exRows8` ending at anchor 31. -/
theorem C8_witness :
    build_csi_like_last24 [] 5 = none ∧
    exWin8.length = 24 ∧
    exWin8.map Prod.fst = (List.range 24).map (fun i => 31 - 23 + i) := by
  refine ⟨C8_window_shape.1 [] 5 (by rfl), ?_⟩
  exact C8_window_shape.2 exRows8 100 31 exWin8 (by decide) (by decide) (by decide)

/-! ### Parser-layer claims -/

theorem packedDigit_ne_nil {tok : List Char} {d : Int}
    (h : packedDigit tok = some d) : tok ≠ [] := by
  rintro rfl
  exact Option.noConfusion h

theorem lookup_append_of_keys_ne {l1 l2 : List (Nat × Int)} {t : Nat}
    (h : ∀ p ∈ l1, p.1 ≠ t) : (l1 ++ l2).lookup t = l2.lookup t := by
  induction l1 with
  | nil => rfl
  | cons q rest ih =>
    obtain ⟨k, w⟩ := q
    have hk : t ≠ k := fun he => h (k, w) (List.mem_cons_self _ _) (he ▸ rfl)
    rw [List.cons_append, List.lookup_cons, beq_eq_false_iff_ne.mpr hk]
    exact ih (fun p hp => h p (List.mem_cons_of_mem _ hp))

/-- One normal hourly token: record the hour, reset the packed flag, keep
scanning. -/
theorem scanHours_normal_step (line : List Char) (hour m : Nat) (packedIn : Bool)
    (value : Int)
    (h1 : parseSignedInt (hourTok line hour) = some value)
    (h2 : packedDigit (hourTok line hour) = none)
    (h3 : hourTok line hour ≠ [])
    (h4 : hourTok line hour ≠ ['9', '9', '9', '9']) :
    scanHours line hour (m + 1) packedIn =
      ((hour, value) :: (scanHours line (hour + 1) m false).1,
        (scanHours line (hour + 1) m false).2.1,
        (scanHours line (hour + 1) m false).2.2) := by
  rw [scanHours, if_neg h3, if_neg h4, h2]
  simp only
  rw [h1]

/-- One packed-filler hourly token (other than the pure filler `9999`):
record the hour with the packed digit and stop with the flag set. -/
theorem scanHours_packed_step (line : List Char) (hour m : Nat) (packedIn : Bool)
    (d : Int)
    (hpk : packedDigit (hourTok line hour) = some d)
    (hnines : hourTok line hour ≠ ['9', '9', '9', '9']) :
    scanHours line hour (m + 1) packedIn = ([(hour, d)], true, true) := by
  rw [scanHours, if_neg (packedDigit_ne_nil hpk), if_neg hnines, hpk]

/-- Scanning past a block of normal tokens records them in order and
continues from the first hour after the block with the packed flag reset. -/
theorem scanHours_normal_block (line : List Char) (v : Nat → Int) :
    ∀ (k hour n : Nat), k ≤ n →
      (∀ i, i < k → parseSignedInt (hourTok line (hour + i)) = some (v (hour + i)) ∧
        packedDigit (hourTok line (hour + i)) = none ∧
        hourTok line (hour + i) ≠ [] ∧
        hourTok line (hour + i) ≠ ['9', '9', '9', '9']) →
      scanHours line hour n false =
        (((List.range k).map (fun i => (hour + i, v (hour + i)))) ++
            (scanHours line (hour + k) (n - k) false).1,
          (scanHours line (hour + k) (n - k) false).2.1,
          (scanHours line (hour + k) (n - k) false).2.2) := by
  intro k
  induction k with
  | zero =>
    intro hour n _ _
    simp only [List.range_zero, List.map_nil, List.nil_append, Nat.add_zero,
      Nat.sub_zero]
  | succ k ih =>
    intro hour n hk hnorm
    obtain ⟨m, rfl⟩ : ∃ m, n = m + 1 := ⟨n - 1, by omega⟩
    have h0 := hnorm 0 (by omega)
    rw [Nat.add_zero] at h0
    have hsh : ∀ i, i < k →
        parseSignedInt (hourTok line (hour + 1 + i)) = some (v (hour + 1 + i)) ∧
        packedDigit (hourTok line (hour + 1 + i)) = none ∧
        hourTok line (hour + 1 + i) ≠ [] ∧
        hourTok line (hour + 1 + i) ≠ ['9', '9', '9', '9'] := by
      intro i hi
      have := hnorm (i + 1) (by omega)
      rw [show hour + (i + 1) = hour + 1 + i by omega] at this
      exact this
    rw [scanHours_normal_step line hour m false (v hour) h0.1 h0.2.1 h0.2.2.1 h0.2.2.2,
      ih (hour + 1) m (by omega) hsh]
    have e1 : hour + (k + 1) = hour + 1 + k := by omega
    have e2 : m + 1 - (k + 1) = m - k := by omega
    have e3 : (List.range (k + 1)).map (fun i => (hour + i, v (hour + i))) =
        (hour, v hour) ::
          (List.range k).map (fun i => (hour + 1 + i, v (hour + 1 + i))) := by
      rw [List.range_succ_eq_map, List.map_cons, List.map_map]
      simp only [Nat.add_zero]
      congr 1
      apply List.map_congr_left
      intro i _
      have : hour + (i + 1) = hour + 1 + i := by omega
      simp [Function.comp, Nat.succ_eq_add_one, this]
    rw [e1, e2, e3]
    simp

/-- Field extraction from a successful line parse. -/
theorem parse_some_fields {line : List Char} {row : ParsedDstRow}
    (h : parse_dst_line_fixed line = some row) :
    row.hours = (scanHours line 0 24 false).1 ∧
    row.stopped_early = (scanHours line 0 24 false).2.1 ∧
    row.last_hour_was_packed_filler = (scanHours line 0 24 false).2.2 := by
  rw [parse_dst_line_fixed] at h
  split at h
  · injection h with h
    subst h
    exact ⟨rfl, rfl, rfl⟩
  · cases h

/-- Claim C9 (amended): when hourly tokens `0..h-1` are normal signed
integers and the token at hour `h` matches the packed-filler pattern *and is
not the pure all-nines filler `9999`* (which the parser checks first and
treats as end-of-data without recording the hour), the parsed row records
exactly hours `0..h`, hour `h` carries the packed digit, `stoppedEarly` is
true and `lastHourPackedFiller` is true. -/
theorem C9_parser_packed_filler (line : List Char) (h24 : Nat) (v : Nat → Int)
    (d : Int) (row : ParsedDstRow)
    (hrow : parse_dst_line_fixed line = some row)
    (hh : h24 < 24)
    (hnorm : ∀ i, i < h24 →
      parseSignedInt (hourTok line i) = some (v i) ∧
      packedDigit (hourTok line i) = none ∧
      hourTok line i ≠ [] ∧ hourTok line i ≠ ['9', '9', '9', '9'])
    (hpack : packedDigit (hourTok line h24) = some d)
    (hnines : hourTok line h24 ≠ ['9', '9', '9', '9']) :
    row.hours.map Prod.fst = List.range (h24 + 1) ∧
    row.hours.lookup h24 = some d ∧
    row.stopped_early = true ∧
    row.last_hour_was_packed_filler = true := by
  obtain ⟨he1, he2, he3⟩ := parse_some_fields hrow
  have hsh : ∀ i, i < h24 →
      parseSignedInt (hourTok line (0 + i)) = some (v (0 + i)) ∧
      packedDigit (hourTok line (0 + i)) = none ∧
      hourTok line (0 + i) ≠ [] ∧
      hourTok line (0 + i) ≠ ['9', '9', '9', '9'] := by
    intro i hi
    rw [Nat.zero_add]
    exact hnorm i hi
  have hblock := scanHours_normal_block line v h24 0 24 (by omega) hsh
  obtain ⟨m, hm⟩ : ∃ m, 24 - h24 = m + 1 := ⟨24 - h24 - 1, by omega⟩
  have hstep : scanHours line (0 + h24) (24 - h24) false = ([(h24, d)], true, true) := by
    rw [Nat.zero_add, hm]
    exact scanHours_packed_step line h24 m false d hpack hnines
  rw [hstep] at hblock
  rw [he1, he2, he3, hblock]
  refine ⟨?_, ?_, rfl, rfl⟩
  · simp only [List.map_append, List.map_map]
    have hcomp : (Prod.fst ∘ fun i => ((0 + i : Nat), v (0 + i))) = fun i => i := by
      funext i
      simp
    rw [hcomp, List.map_id', List.range_succ]
    rfl
  · rw [lookup_append_of_keys_ne]
    · rw [List.lookup_cons, beq_self_eq_true]
    · intro p hp
      obtain ⟨i, hi, rfl⟩ := List.mem_map.mp hp
      rw [List.mem_range] at hi
      simp only
      omega

/-- The parsed row of the pure-filler example line. -/
def exRowNines : ParsedDstRow :=
  { year := 2025, month := 10, day := 7, pre_field := some 0,
    hours := [], stopped_early := true, last_hour_was_packed_filler := false }

/-- Counterexample for C9 as stated: the hour-0 token `9999` of the concrete
line matches "single digit followed by three nines" (digit 9), yet the
parser records no hour at all and leaves `lastHourPackedFiller` false. -/
theorem C9_counterexample :
    packedDigit (hourTok exLineNines 0) = some 9 ∧
    parse_dst_line_fixed exLineNines = some exRowNines ∧
    ¬ (exRowNines.hours.map Prod.fst = List.range (0 + 1) ∧
       exRowNines.hours.lookup 0 = some 9 ∧
       exRowNines.stopped_early = true ∧
       exRowNines.last_hour_was_packed_filler = true) := by
  decide

/-- The parsed row of the packed-filler example line. -/
def exRowC9 : ParsedDstRow :=
  { year := 2025, month := 10, day := 7, pre_field := some 0,
    hours := [(0, -5), (1, 2)], stopped_early := true,
    last_hour_was_packed_filler := true }

/-- Witness for C9 (amended) at the concrete line with hour-1 token `2999`. -/
theorem C9_witness :
    exRowC9.hours.map Prod.fst = List.range 2 ∧
    exRowC9.hours.lookup 1 = some 2 ∧
    exRowC9.stopped_early = true ∧
    exRowC9.last_hour_was_packed_filler = true := by
  exact C9_parser_packed_filler exLineC9 1 (fun _ => (-5 : Int)) 2 exRowC9
    (by decide) (by decide)
    (by
      intro i hi
      have hi0 : i = 0 := by omega
      subst hi0
      refine ⟨by decide, by decide, by decide, by decide⟩)
    (by decide) (by decide)

/-- Claim C10: a 4-character hourly token `-999` is neither the pure filler
nor a packed filler (a signed packed filler needs five characters), so the
parser records the ordinary value `-999` for that hour and continues
scanning at the next hour with the packed flag reset to false. -/
theorem C10_minus999_normal (line : List Char) (h24 : Nat) (v : Nat → Int)
    (row : ParsedDstRow)
    (hrow : parse_dst_line_fixed line = some row)
    (hh : h24 < 24)
    (hnorm : ∀ i, i < h24 →
      parseSignedInt (hourTok line i) = some (v i) ∧
      packedDigit (hourTok line i) = none ∧
      hourTok line i ≠ [] ∧ hourTok line i ≠ ['9', '9', '9', '9'])
    (htok : hourTok line h24 = ['-', '9', '9', '9']) :
    row.hours.lookup h24 = some (-999) ∧
    scanHours line h24 (24 - h24) false =
      ((h24, (-999 : Int)) :: (scanHours line (h24 + 1) (24 - (h24 + 1)) false).1,
        (scanHours line (h24 + 1) (24 - (h24 + 1)) false).2.1,
        (scanHours line (h24 + 1) (24 - (h24 + 1)) false).2.2) ∧
    packedDigit ['-', '9', '9', '9'] = none ∧
    parseSignedInt ['-', '9', '9', '9'] = some (-999) ∧
    (['-', '9', '9', '9'] : List Char) ≠ ['9', '9', '9', '9'] := by
  obtain ⟨m, hm⟩ : ∃ m, 24 - h24 = m + 1 := ⟨24 - h24 - 1, by omega⟩
  have hm' : m = 24 - (h24 + 1) := by omega
  have hstep : scanHours line h24 (24 - h24) false =
      ((h24, (-999 : Int)) :: (scanHours line (h24 + 1) (24 - (h24 + 1)) false).1,
        (scanHours line (h24 + 1) (24 - (h24 + 1)) false).2.1,
        (scanHours line (h24 + 1) (24 - (h24 + 1)) false).2.2) := by
    rw [hm, ← hm']
    exact scanHours_normal_step line h24 m false (-999)
      (by rw [htok]; decide) (by rw [htok]; decide)
      (by rw [htok]; decide) (by rw [htok]; decide)
  refine ⟨?_, hstep, by decide, by decide, by decide⟩
  obtain ⟨he1, _, _⟩ := parse_some_fields hrow
  have hsh : ∀ i, i < h24 →
      parseSignedInt (hourTok line (0 + i)) = some (v (0 + i)) ∧
      packedDigit (hourTok line (0 + i)) = none ∧
      hourTok line (0 + i) ≠ [] ∧
      hourTok line (0 + i) ≠ ['9', '9', '9', '9'] := by
    intro i hi
    rw [Nat.zero_add]
    exact hnorm i hi
  have hblock := scanHours_normal_block line v h24 0 24 (by omega) hsh
  rw [Nat.zero_add] at hblock
  rw [he1, hblock, hstep]
  simp only
  rw [lookup_append_of_keys_ne]
  · rw [List.lookup_cons, beq_self_eq_true]
  · intro p hp
    obtain ⟨i, hi, rfl⟩ := List.mem_map.mp hp
    rw [List.mem_range] at hi
    simp only
    omega

/-- The parsed row of the `-999` example line. -/
def exRowC10 : ParsedDstRow :=
  { year := 2025, month := 10, day := 7, pre_field := some 0,
    hours := [(0, -999), (1, -7)], stopped_early := true,
    last_hour_was_packed_filler := false }

/-- Witness for C10 at the concrete line with hour-0 token `-999`. -/
theorem C10_witness :
    exRowC10.hours.lookup 0 = some (-999) ∧
    scanHours exLineC10 0 24 false =
      ((0, (-999 : Int)) :: (scanHours exLineC10 1 23 false).1,
        (scanHours exLineC10 1 23 false).2.1,
        (scanHours exLineC10 1 23 false).2.2) := by
  have h := C10_minus999_normal exLineC10 0 (fun _ => 0) exRowC10
    (by decide) (by decide) (fun i hi => absurd hi (by omega)) (by decide)
  exact ⟨h.1, h.2.1⟩
